import Mathlib

/-!
Shallow embedding of the UniTracker handbook scraper
(`scripts/scrape-handbook` source file) and verification of the frozen
claims about it.  Text processing in the source is done with JavaScript
regular expressions; we embed the handful of patterns actually used with
a small greedy-backtracking matcher whose semantics on those patterns
coincides with the JS engine (leftmost match, greedy repetition with
backtracking, global non-overlapping scan).  Characters are modelled
over the ASCII fragment the handbook data uses.
-/

/-- JavaScript whitespace class for the regex token that matches spaces,
tabs and newlines, and for trimming (ASCII plus the Unicode code points
the JS definition lists). -/
def jsWs (c : Char) : Bool :=
  c = ' ' || c = '\t' || c = '\n' || c = '\r' || c.val = 11 || c.val = 12 ||
  c.val = 160 || c.val = 5760 || (8192 ≤ c.val && c.val ≤ 8202) ||
  c.val = 8232 || c.val = 8233 || c.val = 8239 || c.val = 8287 ||
  c.val = 12288 || c.val = 65279

/-- The restricted regular-expression language covering every pattern the
scraper uses: literal characters, greedy character-class repetitions
with a lower bound and an optional upper bound, and concatenation. -/
inductive RE where
  | lit (c : Char)
  | cls (p : Char → Bool) (mn : Nat) (mx : Option Nat)
  | cat (a b : RE)

/-- Greedy backtracking over repetition lengths: try consuming `n` chars,
then `n-1`, and so on, for `cnt` candidate lengths; `k` is the matcher
continuation returning how many further characters it consumed. -/
def tryLens (l : List Char) (k : List Char → Option Nat) : Nat → Nat → Option Nat
  | _, 0 => none
  | n, cnt + 1 =>
    match k (l.drop n) with
    | some m => some (n + m)
    | none => tryLens l k (n - 1) cnt

/-- Backtracking matcher: `matchRE re l k` returns the total number of
characters consumed by `re` and then the continuation `k`, trying the
greedy (longest-repetition-first) alternative first, as the JS engine
does. -/
def matchRE : RE → List Char → (List Char → Option Nat) → Option Nat
  | .lit c, l, k =>
    match l with
    | [] => none
    | x :: rest => if x = c then (k rest).map (· + 1) else none
  | .cls p mn mx, l, k =>
    let run := (l.takeWhile p).length
    let hi := match mx with
      | none => run
      | some m => Nat.min run m
    if hi < mn then none else tryLens l k hi (hi - mn + 1)
  | .cat a b, l, k => matchRE a l (fun rest => matchRE b rest k)

/-- Length of the match of `re` at the head of `l`, if any. -/
def matchAt (re : RE) (l : List Char) : Option Nat :=
  matchRE re l (fun _ => some 0)

/-- Global replace scan, as in JS `String.replace` with a `g` flag: walk
left to right, replace each leftmost non-overlapping match, copy
non-matching characters.  `fuel` starts at the string length; every step
consumes at least one character, so it never runs out. -/
def replaceScan (re : RE) (repl : List Char) : Nat → List Char → List Char
  | 0, l => l
  | _ + 1, [] => []
  | fuel + 1, c :: rest =>
    match matchAt re (c :: rest) with
    | some (n + 1) => repl ++ replaceScan re repl fuel ((c :: rest).drop (n + 1))
    | some 0 => repl ++ c :: replaceScan re repl fuel rest
    | none => c :: replaceScan re repl fuel rest

/-- JS `str.replace(re, repl)` with a global flag, over char lists. -/
def replaceAllRE (re : RE) (repl : List Char) (l : List Char) : List Char :=
  replaceScan re repl l.length l

/-- Global match scan, as in JS `String.match`/`matchAll` with a `g`
flag: the list of matched substrings, leftmost and non-overlapping. -/
def scanMatches (re : RE) : Nat → List Char → List (List Char)
  | 0, _ => []
  | _ + 1, [] => []
  | fuel + 1, c :: rest =>
    match matchAt re (c :: rest) with
    | some (n + 1) => ((c :: rest).take (n + 1)) :: scanMatches re fuel ((c :: rest).drop (n + 1))
    | some 0 => [] :: scanMatches re fuel rest
    | none => scanMatches re fuel rest

/-- All matches of `re` in a string. -/
def scanRE (re : RE) (l : List Char) : List (List Char) :=
  scanMatches re l.length l

/-- JS `re.test(s)`: does `re` match at some position of `l`? -/
def hasMatch (re : RE) : List Char → Bool
  | [] => (matchAt re []).isSome
  | l@(_ :: rest) => (matchAt re l).isSome || hasMatch re rest

/-- JS `str.split(re)`: the segments of `l` between global matches of
`re`. `acc` is the current segment, reversed. -/
def splitScan (re : RE) (acc : List Char) : Nat → List Char → List (List Char)
  | 0, l => [acc.reverse ++ l]
  | _ + 1, [] => [acc.reverse]
  | fuel + 1, c :: rest =>
    match matchAt re (c :: rest) with
    | some (n + 1) => acc.reverse :: splitScan re [] fuel ((c :: rest).drop (n + 1))
    | _ => splitScan re (c :: acc) fuel rest

/-- JS `str.split(re)` over char lists. -/
def splitOnRE (re : RE) (l : List Char) : List (List Char) :=
  splitScan re [] l.length l

/-- A single case-insensitive literal character (`x` under the `i` flag). -/
def reCharCI (c : Char) : RE := RE.cls (fun x => x.toLower = c.toLower) 1 (some 1)

/-- A case-insensitive literal string under the `i` flag. -/
def reStrCI (s : String) : RE :=
  match s.data with
  | [] => RE.cls (fun _ => false) 0 (some 0)
  | c :: cs => cs.foldl (fun acc ch => RE.cat acc (reCharCI ch)) (reCharCI c)

/-- A case-sensitive literal string. -/
def reStr (s : String) : RE :=
  match s.data with
  | [] => RE.cls (fun _ => false) 0 (some 0)
  | c :: cs => cs.foldl (fun acc ch => RE.cat acc (RE.lit ch)) (RE.lit c)

/-- JS `String.trim`: drop leading and trailing whitespace. -/
def jsTrimL (l : List Char) : List Char :=
  ((l.dropWhile jsWs).reverse.dropWhile jsWs).reverse

/-- The `/\s+\n/g` pattern. -/
def wsNlRE : RE := RE.cat (RE.cls jsWs 1 none) (RE.lit '\n')

/-- The `/\n\s+/g` pattern. -/
def nlWsRE : RE := RE.cat (RE.lit '\n') (RE.cls jsWs 1 none)

/-- The `/\s{2,}/g` pattern. -/
def multiWsRE : RE := RE.cls jsWs 2 none

/-- The `/\n{3,}/g` pattern. -/
def tripleNlRE : RE := RE.cls (fun c => c = '\n') 3 none

/-- The scraper's `cleanText` on char lists: the four global regex
replacements `\s+\n -> \n`, `\n\s+ -> \n`, `\s{2,} -> ' '`,
`\n{3,} -> \n\n`, applied in source order, then `trim()`. -/
def cleanTextL (l : List Char) : List Char :=
  jsTrimL
    (replaceAllRE tripleNlRE ['\n', '\n']
      (replaceAllRE multiWsRE [' ']
        (replaceAllRE nlWsRE ['\n']
          (replaceAllRE wsNlRE ['\n'] l))))

/-- `cleanText` on strings (the source also coerces null/undefined to
the empty string; we model the string case, which is the one the
pipeline uses). -/
def cleanTextS (s : String) : String := ⟨cleanTextL s.data⟩

/-- Local-part character class of the email pattern,
`[A-Z0-9._%+-]` under the `i` flag. -/
def emailLocalChar (c : Char) : Bool :=
  c.isAlpha || c.isDigit || c = '.' || c = '_' || c = '%' || c = '+' || c = '-'

/-- Domain character class of the email pattern, `[A-Z0-9.-]` under the
`i` flag. -/
def emailDomainChar (c : Char) : Bool :=
  c.isAlpha || c.isDigit || c = '.' || c = '-'

/-- The email pattern `[A-Z0-9._%+-]+@[A-Z0-9.-]+\.[A-Z]{2,}` (with
flags `gi`). -/
def emailRE : RE :=
  RE.cat (RE.cls emailLocalChar 1 none)
    (RE.cat (RE.lit '@')
      (RE.cat (RE.cls emailDomainChar 1 none)
        (RE.cat (RE.lit '.') (RE.cls Char.isAlpha 2 none))))

/-- JS `Set` insertion over an accumulator list: add each element of `l`
that is not already present, preserving insertion order. -/
def addAll (acc : List String) (l : List String) : List String :=
  l.foldl (fun a e => if a.contains e then a else a ++ [e]) acc

/-- The scraper's `extractEmails`: empty input gives `[]`; otherwise all
matches of the email pattern, trimmed, deduplicated by exact string
equality via a JS `Set`, in first-occurrence order. -/
def extractEmails (s : String) : List String :=
  if s = "" then []
  else addAll [] ((scanRE emailRE s.data).map (fun m => (⟨jsTrimL m⟩ : String)))

/-- The `/semester\s*1/i` filter pattern used by the orchestrator. -/
def sem1RE : RE :=
  RE.cat (reStrCI "semester") (RE.cat (RE.cls jsWs 0 none) (RE.lit '1'))

/-- Case-insensitive substring test, modelling
`a.toLowerCase().includes(b.toLowerCase())` (ASCII case folding). -/
def listStartsWith : List Char → List Char → Bool
  | _, [] => true
  | [], _ :: _ => false
  | a :: as, b :: bs => a = b && listStartsWith as bs

/-- Is `sub` a contiguous substring of `hay`? -/
def listHasSub : List Char → List Char → Bool
  | [], sub => sub.isEmpty
  | l@(_ :: rest), sub => listStartsWith l sub || listHasSub rest sub

/-- `a.toLowerCase().includes(b.toLowerCase())`. -/
def containsCI (a b : String) : Bool :=
  listHasSub (a.data.map Char.toLower) (b.data.map Char.toLower)

/-- A table cell: whether it is a `th` cell, and its text. -/
structure Cell where
  isTh : Bool
  text : String
deriving DecidableEq

/-- A table row. -/
structure TRow where
  cells : List Cell
deriving DecidableEq

/-- A `table` element: its `thead` rows and its `tbody` rows. -/
structure TableData where
  theadRows : List TRow
  tbodyRows : List TRow
deriving DecidableEq

/-- A sibling node on the level walked by the section extractors: a
heading `h<level>`, a `table`, or any other element with its text. -/
inductive Elem where
  | heading (level : Nat) (text : String)
  | table (data : TableData)
  | para (text : String)
deriving DecidableEq

/-- A document, as the sibling sequence the heading-scoped extractors
walk (cheerio `.next()` chain). -/
abbrev Doc := List Elem

/-- cheerio `.text()` of a table: concatenated text of all its cells. -/
def tableText (d : TableData) : String :=
  String.join (((d.theadRows ++ d.tbodyRows).map (fun r => String.join (r.cells.map (·.text)))))

/-- cheerio `.text()` of a sibling node. -/
def elemText : Elem → String
  | .heading _ t => t
  | .table d => tableText d
  | .para t => t

/-- The elements after the first one satisfying `p`, if any (the
`.filter(...).first()` then `.next()` walk entry point). -/
def afterFirst (p : Elem → Bool) : Doc → Option Doc
  | [] => none
  | e :: rest => if p e then some rest else afterFirst p rest

/-- Does this node satisfy `node.is('h5') || node.is('h3') ||
node.is('h2')`, the break condition of `parseSemesterEmails`? -/
def stopsEmails : Elem → Bool
  | .heading lv _ => lv = 5 || lv = 3 || lv = 2
  | _ => false

/-- The sibling walk of `parseSemesterEmails`: collect email tokens from
each node until a breaking heading, accumulating into the JS `Set`
(modelled as an insertion-ordered duplicate-free list). -/
def collectEmails : Doc → List String → List String
  | [], acc => acc
  | e :: rest, acc =>
    if stopsEmails e then acc
    else collectEmails rest (addAll acc (extractEmails (elemText e)))

/-- Is this node an `h5` whose text contains the period label
case-insensitively? -/
def isH5Match (label : String) : Elem → Bool
  | .heading lv t => lv = 5 && containsCI t label
  | _ => false

/-- The scraper's `parseSemesterEmails`: find the first matching `h5`,
walk its following siblings until an `h5`/`h3`/`h2`, extracting email
tokens into a `Set`; empty if no matching heading. -/
def parseSemesterEmails (doc : Doc) (semesterLabel : String) : List String :=
  match afterFirst (isH5Match semesterLabel) doc with
  | none => []
  | some rest => collectEmails rest []

/-- Is this node an `h3` or `h4` whose text contains the period label
case-insensitively (the heading selector of `parseAssessmentTables`)? -/
def isH34Match (label : String) : Elem → Bool
  | .heading lv t => (lv = 3 || lv = 4) && containsCI t label
  | _ => false

/-- Does this node satisfy `node.is('h2') || node.is('h3') ||
node.is('h4')`, the break condition of `parseAssessmentTables`? -/
def stopsTables : Elem → Bool
  | .heading lv _ => lv = 2 || lv = 3 || lv = 4
  | _ => false

/-- An extracted assessment table: positional header labels and rows as
(label, cell-text) objects. -/
structure AssessmentTable where
  columns : List String
  rows : List (List (String × String))
deriving DecidableEq

/-- JS object property assignment `obj[k] = v`: overwrite in place if
the key exists, else append.  (The exotic JS ordering of integer-like
keys is not modelled; the labels here are not integer-like.) -/
def objSet : List (String × String) → String → String → List (String × String)
  | [], k, v => [(k, v)]
  | (k', v') :: rest, k, v =>
    if k' = k then (k', v) :: rest else (k', v') :: objSet rest k v

/-- Header label for cell index `i`:
`headers[index] || 'Column ' + (index+1)` (empty labels are falsy). -/
def keyFor (headers : List String) (i : Nat) : String :=
  match headers.get? i with
  | some h => if h = "" then "Column " ++ toString (i + 1) else h
  | none => "Column " ++ toString (i + 1)

/-- One `tbody` row of a table: skipped when it has no `td` cells, else
the object keyed by position-aligned header labels. -/
def rowOf (headers : List String) (r : TRow) : Option (List (String × String)) :=
  let tds := r.cells.filter (fun c => !c.isTh)
  if tds.isEmpty then none
  else some ((tds.enum.foldl (fun obj ic => objSet obj (keyFor headers ic.1) (cleanTextS ic.2.text)) []))

/-- `node.find('thead th')` texts, cleaned. -/
def theadHeaders (d : TableData) : List String :=
  ((d.theadRows.map (fun r => r.cells.filter (·.isTh))).flatten).map (fun c => cleanTextS c.text)

/-- `node.find('tr').first().find('th, td')` texts, cleaned (header
fallback when `thead` yields no labels). -/
def firstTrHeaders (d : TableData) : List String :=
  match d.theadRows ++ d.tbodyRows with
  | [] => []
  | r :: _ => r.cells.map (fun c => cleanTextS c.text)

/-- Extraction of one table node: header labels (with first-row
fallback), populated rows only; `none` when zero rows survive, which is
the `if (rows.length)` guard dropping the table. -/
def tableOf (d : TableData) : Option AssessmentTable :=
  let hs := theadHeaders d
  let headers := if hs.isEmpty then firstTrHeaders d else hs
  let rows := d.tbodyRows.filterMap (rowOf headers)
  if rows.isEmpty then none else some ⟨headers, rows⟩

/-- The sibling walk of `parseAssessmentTables`: collect tables until an
`h2`/`h3`/`h4` heading. -/
def walkTables : Doc → List AssessmentTable
  | [] => []
  | e :: rest =>
    if stopsTables e then []
    else
      match e with
      | .table d =>
        match tableOf d with
        | some t => t :: walkTables rest
        | none => walkTables rest
      | _ => walkTables rest

/-- The scraper's `parseAssessmentTables`: find the first matching
`h3`/`h4`, then walk its following siblings for tables until the next
`h2`/`h3`/`h4`; empty if no matching heading. -/
def parseAssessmentTables (doc : Doc) (semesterLabel : String) : List AssessmentTable :=
  match afterFirst (isH34Match semesterLabel) doc with
  | none => []
  | some rest => walkTables rest

/-- Decimal digit run to a natural number. -/
def digitsToNat (l : List Char) : Nat :=
  l.foldl (fun n c => n * 10 + (c.toNat - '0'.toNat)) 0

/-- The `/page=(\d+)/g` pattern. -/
def pageRE : RE := RE.cat (reStr "page=") (RE.cls Char.isDigit 1 none)

/-- The page-number tokens of all `page=(\d+)` occurrences: each match
is `page=` followed by the captured digit run. -/
def pageTokens (html : String) : List Nat :=
  (scanRE pageRE html.data).map (fun m => digitsToNat (m.drop 5))

/-- The scraper's `parseMaxPage`: `Math.max` of the observed tokens, or
1 when there are none. -/
def parseMaxPage (html : String) : Nat :=
  let pages := pageTokens html
  if pages.isEmpty then 1 else pages.foldl Nat.max 0

/-- Outcome of one `fetch` call: a transport-level failure (the promise
rejects) or a response with an HTTP status and body text. -/
inductive FetchOutcome where
  | transportError (msg : String)
  | response (status : Nat) (body : String)
deriving DecidableEq

/-- One loop iteration body of `fetchWithRetry`: `response.ok` is
`200 <= status <= 299`; a non-ok status that is `>= 500` or `429` throws
`HTTP <status>`, any other response returns its body text. -/
def attemptResult : FetchOutcome → Except String String
  | .transportError msg => .error msg
  | .response status body =>
    if ¬(200 ≤ status ∧ status ≤ 299) then
      if 500 ≤ status ∨ status = 429 then .error ("HTTP " ++ toString status)
      else .ok body
    else .ok body

/-- Is this attempt outcome retryable, i.e. does the iteration body
throw on it? -/
def retryable : FetchOutcome → Bool
  | .transportError _ => true
  | .response status _ =>
    if 200 ≤ status ∧ status ≤ 299 then false
    else decide (500 ≤ status ∨ status = 429)

deriving instance DecidableEq for Except

/-- Observable trace of a `fetchWithRetry` call: its result, how many
fetch attempts it performed, and the backoff delays (ms) it slept
between attempts. -/
structure FetchTrace where
  result : Except String String
  attempts : Nat
  delays : List Nat
deriving DecidableEq

/-- The `while (attempt <= retries)` loop of `fetchWithRetry`, with
`outcomes i` the outcome of the `i`-th fetch attempt (0-based).  On an
error the attempt counter is incremented; past `retries` the error is
rethrown, otherwise the loop sleeps `500 * attempt` and retries. -/
def fetchGo (outcomes : Nat → FetchOutcome) (retries : Nat) (attempt : Nat) : FetchTrace :=
  if _h : attempt ≤ retries then
    match attemptResult (outcomes attempt) with
    | .ok body => ⟨.ok body, attempt + 1, []⟩
    | .error e =>
      if retries < attempt + 1 then ⟨.error e, attempt + 1, []⟩
      else
        let rest := fetchGo outcomes retries (attempt + 1)
        ⟨rest.result, rest.attempts, 500 * (attempt + 1) :: rest.delays⟩
  else ⟨.ok "", attempt, []⟩
termination_by retries + 1 - attempt
decreasing_by omega

/-- The scraper's `fetchWithRetry url {retries}` against an endpoint
whose successive attempt outcomes are given by `outcomes`. -/
def fetchWithRetry (retries : Nat) (outcomes : Nat → FetchOutcome) : FetchTrace :=
  fetchGo outcomes retries 0

/-- A search-result stub: subject code, name, detail link, offering
text. -/
structure Stub where
  code : String
  name : String
  href : Option String
  offered : String
deriving DecidableEq

/-- JS `Map.set`: overwrite the value in place when the key exists, else
append a new entry (insertion order preserved). -/
def mapInsert : List (String × Stub) → String → Stub → List (String × Stub)
  | [], k, v => [(k, v)]
  | (k', v') :: rest, k, v =>
    if k' = k then (k', v) :: rest else (k', v') :: mapInsert rest k v

/-- The `uniqueItems` map build: `searchItems.forEach(item => { if
(item.code) uniqueItems.set(item.code, item) })`, starting from `m`. -/
def buildMapFrom (m : List (String × Stub)) (l : List Stub) : List (String × Stub) :=
  l.foldl (fun m s => if s.code = "" then m else mapInsert m s.code s) m

/-- JS `Map` lookup. -/
def mapLookup (m : List (String × Stub)) (k : String) : Option Stub :=
  (m.find? (fun p => p.1 = k)).map (·.2)

/-- The deduplicated candidate list `[...uniqueItems.values()]`. -/
def dedupStubs (l : List Stub) : List Stub :=
  (buildMapFrom [] l).map (·.2)

/-- A direct child of the overview wrapper: whether it has the
`course__overview-box` class, and its text. -/
structure OChild where
  isBox : Bool
  text : String
deriving DecidableEq

/-- The parsed pieces of a subject detail page that the worker consumes:
the overview wrapper children (if a wrapper exists), the concatenated
text of `.course__overview-box` (empty when absent), and the
`meta[name="points"]` content attribute. -/
structure DetailPage where
  overviewWrapper : Option (List OChild)
  overviewBoxText : String
  pointsMeta : Option String
deriving DecidableEq

/-- The scraper's `parseAvailability`: cleaned text of the overview
box. -/
def parseAvailability (d : DetailPage) : String :=
  cleanTextS d.overviewBoxText

/-- The `/\n\n+/` paragraph splitter used by `parseOverview`. -/
def blankSplitRE : RE := RE.cls (fun c => c = '\n') 2 none

/-- The scraper's `parseOverview`: no wrapper gives `[]`; otherwise each
non-box child's cleaned text is split on blank-line boundaries and the
non-empty cleaned chunks are accumulated in order. -/
def parseOverview (d : DetailPage) : List String :=
  match d.overviewWrapper with
  | none => []
  | some children =>
    children.foldl
      (fun parts ch =>
        if ch.isBox then parts
        else
          let t := cleanTextS ch.text
          if t = "" then parts
          else parts ++ (((splitOnRE blankSplitRE t.data).map (fun l => cleanTextS ⟨l⟩)).filter (fun c => c ≠ "")))
      []

/-- Decimal-integer fragment of JS `Number(s)` (whitespace-trimmed
optionally signed digit strings; anything else is `NaN`, i.e. `none`).
The handbook `points` metadata only uses this fragment. -/
def parseNumber (s : String) : Option Int :=
  match jsTrimL s.data with
  | [] => some 0
  | '-' :: ds => if ds ≠ [] ∧ ds.all Char.isDigit then some (-(digitsToNat ds : Int)) else none
  | ds => if ds.all Char.isDigit then some ((digitsToNat ds : Int)) else none

/-- `new URL(href, baseUrl).toString()` for the absolute and
root-relative hrefs the handbook emits (full WHATWG URL resolution is
out of scope). -/
def buildUrl (href : String) : String :=
  if listStartsWith href.data "https://".data || listStartsWith href.data "http://".data then href
  else "https://handbook.unimelb.edu.au" ++ href

/-- `item.href || '/2026/subjects/<code lowercased>'` (empty href is
falsy). -/
def hrefOrDefault (item : Stub) : String :=
  match item.href with
  | some h => if h = "" then "/2026/subjects/" ++ item.code.toLower else h
  | none => "/2026/subjects/" ++ item.code.toLower

/-- `url.replace(/\/$/, '')`: strip one trailing slash. -/
def stripTrailingSlash (s : String) : String :=
  if s.data.getLast? = some '/' then ⟨s.data.dropLast⟩ else s

/-- The final emitted per-subject record. -/
structure SubjectRecord where
  code : String
  name : String
  year : Nat
  studyPeriod : String
  creditPoints : Option Int
  overview : List String
  assessmentTables : List AssessmentTable
  instructorEmails : List String
  availability : String
  subjectUrl : String
  assessmentUrl : String
deriving DecidableEq

/-- The three pages a worker may fetch for one subject, each either a
parsed document or a fetch error raised after retries (`cheerio.load`
composed with the fetch; it never fails on its own). -/
structure SubjectPages where
  detail : Except String DetailPage
  assessment : Except String Doc
  datesTimes : Except String Doc

/-- What one worker run contributes for one candidate: a saved record, a
semester-filter skip (`skipped += 1`), or an abandoned candidate whose
detail fetch raised. -/
inductive WorkerOutcome where
  | saved (r : SubjectRecord)
  | filtered
  | failedFetch
deriving DecidableEq

/-- Assessment-page extraction with empty-data degradation: tables and
emails from the assessment document, or empty on fetch failure. -/
def assessExtract (pg : SubjectPages) : List AssessmentTable × List String :=
  match pg.assessment with
  | .ok adoc => (parseAssessmentTables adoc "Semester 1", parseSemesterEmails adoc "Semester 1")
  | .error _ => ([], [])

/-- The emails stored in the record: the assessment-page extraction,
falling back to the dates/times page when it found none (a failed
fallback fetch is swallowed and leaves the list empty). -/
def finalEmails (pg : SubjectPages) : List String :=
  if (assessExtract pg).2.isEmpty then
    match pg.datesTimes with
    | .ok ddoc => parseSemesterEmails ddoc "Semester 1"
    | .error _ => []
  else (assessExtract pg).2

/-- `Number(pointsMeta)` guarded by the truthiness check
(`pointsMeta ? Number(pointsMeta) : null`) and `Number.isFinite`. -/
def creditPointsOf (d : DetailPage) : Option Int :=
  match d.pointsMeta with
  | none => none
  | some s => if s = "" then none else parseNumber s

/-- Assembly of the `results.push({...})` record for one candidate. -/
def assembleRecord (item : Stub) (d : DetailPage) (pg : SubjectPages) : SubjectRecord :=
  { code := item.code
    name := item.name
    year := 2026
    studyPeriod := "Semester 1"
    creditPoints := creditPointsOf d
    overview := parseOverview d
    assessmentTables := (assessExtract pg).1
    instructorEmails := finalEmails pg
    availability := parseAvailability d
    subjectUrl := buildUrl (hrefOrDefault item)
    assessmentUrl := stripTrailingSlash (buildUrl (hrefOrDefault item)) ++ "/assessment" }

/-- The per-candidate worker body (the `asyncPool` iterator): semester
pre-filter on the offering hint, detail fetch (abandon on failure),
semester re-filter on the availability text, extraction, assessment
fetch with empty-data degradation, dates/times email fallback, record
assembly. -/
def processItem (pages : Stub → SubjectPages) (onlySemester1 : Bool) (item : Stub) : WorkerOutcome :=
  if onlySemester1 && item.offered ≠ "" && !hasMatch sem1RE item.offered.data then .filtered
  else
    match (pages item).detail with
    | .error _ => .failedFetch
    | .ok d =>
      if onlySemester1 && parseAvailability d ≠ "" && !hasMatch sem1RE (parseAvailability d).data then
        .filtered
      else .saved (assembleRecord item d (pages item))

/-- The worker outcomes over a candidate list, in the given processing
order. -/
def crawlOutcomes (pages : Stub → SubjectPages) (onlySemester1 : Bool) (items : List Stub) : List WorkerOutcome :=
  items.map (processItem pages onlySemester1)

/-- Saved-record projection of a worker outcome. -/
def toSaved : WorkerOutcome → Option SubjectRecord
  | .saved r => some r
  | _ => none

/-- Did the worker save a record? -/
def isSaved : WorkerOutcome → Bool
  | .saved _ => true
  | _ => false

/-- Was the candidate rejected by a semester-filter check
(`skipped += 1`)? -/
def isFiltered : WorkerOutcome → Bool
  | .filtered => true
  | _ => false

/-- Was the candidate abandoned because its detail fetch raised? -/
def isFailed : WorkerOutcome → Bool
  | .failedFetch => true
  | _ => false

/-- The `results` accumulator contents for candidates processed in the
given completion order. -/
def crawlResults (pages : Stub → SubjectPages) (onlySemester1 : Bool) (order : List Stub) : List SubjectRecord :=
  (crawlOutcomes pages onlySemester1 order).filterMap toSaved

/-- The record ordering used by `results.sort((a, b) =>
a.code.localeCompare(b.code))` (codes are ASCII, for which
`localeCompare` agrees with lexicographic order). -/
def recLE (a b : SubjectRecord) : Prop := a.code ≤ b.code

instance : DecidableRel recLE := fun a b => inferInstanceAs (Decidable (a.code ≤ b.code))

instance : IsTotal SubjectRecord recLE := ⟨fun a b => le_total a.code b.code⟩

instance : IsTrans SubjectRecord recLE := ⟨fun _ _ _ h h' => le_trans h h'⟩

/-- `results.sort(...)` by subject code. -/
def sortByCode (l : List SubjectRecord) : List SubjectRecord :=
  List.insertionSort recLE l

/-- The written snapshot payload. -/
structure Snapshot where
  generatedAt : String
  version : String
  searchUrl : String
  studyPeriod : String
  year : Nat
  totalFound : Nat
  totalSaved : Nat
  skipped : Nat
  items : List SubjectRecord

/-- Snapshot assembly: sort the results by code, hash their
serialization (`hashHex` stands for SHA-256 hex, `stringify` for
`JSON.stringify`; both are fixed deterministic functions) and keep 12
hex characters as `version`. -/
def mkSnapshot (hashHex : String → String) (stringify : List SubjectRecord → String)
    (now searchUrl : String) (totalFound skipped : Nat)
    (results : List SubjectRecord) : Snapshot :=
  let items := sortByCode results
  { generatedAt := now
    version := (hashHex (stringify items)).take 12
    searchUrl := searchUrl
    studyPeriod := "Semester 1"
    year := 2026
    totalFound := totalFound
    totalSaved := items.length
    skipped := skipped
    items := items }

/-- Prefix of the `extractEmails` walk over non-breaking siblings: fold
email extraction over the nodes into the accumulator set. -/
def accEmails (xs : Doc) (acc : List String) : List String :=
  xs.foldl (fun a e => addAll a (extractEmails (elemText e))) acc

/-- Does a page contain a stub with the given subject code? -/
def pageHasCode (code : String) (pg : List Stub) : Bool :=
  pg.any (fun s => s.code = code)

/-- The last stub with the given code in a stub list, if any. -/
def lastStubWith (code : String) (l : List Stub) : Option Stub :=
  (l.filter (fun s => s.code = code)).getLast?

/-! Concrete inputs used by counterexamples and witnesses. -/

/-- An endpoint answering HTTP 503 on every attempt. -/
def alwaysBusy : Nat → FetchOutcome := fun _ => FetchOutcome.response 503 "busy"

/-- An endpoint answering HTTP 404 on every attempt. -/
def always404 : Nat → FetchOutcome := fun _ => FetchOutcome.response 404 "nf"

/-- Assessment/dates sibling sequence whose period section contains two
case-variant spellings of the same address. -/
def docCaseVariant : Doc :=
  [Elem.heading 5 "Semester 1", Elem.para "Contact X@y.com or x@Y.com"]

/-- Subject pages feeding `docCaseVariant` to the worker. -/
def pagesCaseVariant : Stub → SubjectPages := fun _ =>
  { detail := Except.ok ⟨some [⟨false, "Overview text here."⟩], "Semester 1", some "12"⟩
    assessment := Except.ok docCaseVariant
    datesTimes := Except.error "unused" }

/-- A candidate stub offered in Semester 1. -/
def stubMast : Stub :=
  ⟨"MAST10006", "Calculus 2", some "/2026/subjects/mast10006", "Semester 1"⟩

/-- The record the worker emits for `stubMast` over
`pagesCaseVariant`. -/
def recCaseVariant : SubjectRecord :=
  { code := "MAST10006"
    name := "Calculus 2"
    year := 2026
    studyPeriod := "Semester 1"
    creditPoints := some 12
    overview := ["Overview text here."]
    assessmentTables := []
    instructorEmails := ["X@y.com", "x@Y.com"]
    availability := "Semester 1"
    subjectUrl := "https://handbook.unimelb.edu.au/2026/subjects/mast10006"
    assessmentUrl := "https://handbook.unimelb.edu.au/2026/subjects/mast10006/assessment" }

/-- Sibling sequence where an `h4` (a heading of higher level than the
period `h5`) separates the period emails from a later email. -/
def docAfterH4 : Doc :=
  [Elem.heading 5 "Semester 1", Elem.para "contact a@x.com",
   Elem.heading 4 "Coordinator", Elem.para "b@y.com",
   Elem.heading 5 "Semester 2", Elem.para "c@z.com"]

/-- An assessment sibling sequence with one populated table in the
Semester 1 section. -/
def docOneTable : Doc :=
  [Elem.heading 3 "Semester 1",
   Elem.table ⟨[⟨[⟨true, "Assessment"⟩, ⟨true, "Weight"⟩, ⟨true, "Due"⟩]⟩],
               [⟨[⟨false, "Essay"⟩, ⟨false, "30%"⟩, ⟨false, "Week 5"⟩]⟩]⟩,
   Elem.heading 3 "Semester 2"]

/-- The table extracted from `docOneTable`. -/
def tblEssay : AssessmentTable :=
  ⟨["Assessment", "Weight", "Due"],
   [[("Assessment", "Essay"), ("Weight", "30%"), ("Due", "Week 5")]]⟩

/-- Subject pages whose detail fetch always raises. -/
def pagesDetailDown : Stub → SubjectPages := fun _ =>
  { detail := Except.error "HTTP 503"
    assessment := Except.error "HTTP 503"
    datesTimes := Except.error "HTTP 503" }

/-- Two search pages both carrying subject code `A`. -/
def pagesTwoA : List (List Stub) :=
  [[⟨"A", "first", none, ""⟩, ⟨"B", "other", none, ""⟩],
   [⟨"A", "second", none, ""⟩]]

/-- A small candidate pool for the determinism witness. -/
def stubsW9 : List Stub :=
  [⟨"B", "b", none, "Semester 1"⟩, ⟨"A", "a", none, "Semester 1"⟩]

/-! Fetcher retry behaviour. -/

/-- An attempt throws exactly when its outcome is retryable. -/
lemma attemptResult_error_iff (o : FetchOutcome) :
    (∃ e, attemptResult o = .error e) ↔ retryable o = true := by
  cases o with
  | transportError m => simp [attemptResult, retryable]
  | response s b =>
    simp only [attemptResult, retryable]
    split_ifs <;> simp_all

/-- A non-throwing attempt returns the response body. -/
lemma attemptResult_ok_body (s : Nat) (b : String)
    (h : ¬(500 ≤ s ∨ s = 429)) : attemptResult (.response s b) = .ok b := by
  simp only [attemptResult]
  split_ifs <;> simp_all

/-- Under an always-503 endpoint the loop from attempt `a` exhausts the
budget, raises `HTTP 503`, performs the remaining attempts and sleeps
the linear backoff schedule. -/
lemma fetchGo_always503 (outcomes : Nat → FetchOutcome) (body : Nat → String)
    (hall : ∀ i, outcomes i = .response 503 (body i)) :
    ∀ (n retries a : Nat), retries - a = n → a ≤ retries →
      fetchGo outcomes retries a =
        ⟨.error "HTTP 503", retries + 1, (List.range' (a + 1) (retries - a)).map (fun i => 500 * i)⟩ := by
  intro n
  induction n with
  | zero =>
    intro retries a hn ha
    have hae : a = retries := by omega
    subst hae
    rw [fetchGo]
    simp only [ha, dif_pos, hall a, attemptResult]
    norm_num
    rfl
  | succ n ih =>
    intro retries a hn ha
    have hlt : a < retries := by omega
    rw [fetchGo]
    simp only [ha, dif_pos, hall a, attemptResult]
    norm_num
    have hrest := ih retries (a + 1) (by omega) (by omega)
    rw [if_neg (by omega), hrest]
    have hr : retries - a = (retries - (a + 1)) + 1 := by omega
    rw [hr, List.range'_succ]
    simp

/-- C2: against an endpoint answering HTTP 503 on every request,
`fetchWithRetry` performs exactly `retries + 1` fetch attempts, sleeps
the linear backoff schedule `500*1, ..., 500*retries` between attempts,
and raises the last error (`HTTP 503`) to the caller. -/
theorem fetchWithRetry_always503 (retries : Nat) (outcomes : Nat → FetchOutcome)
    (body : Nat → String) (hall : ∀ i, outcomes i = .response 503 (body i)) :
    fetchWithRetry retries outcomes =
      ⟨.error "HTTP 503", retries + 1, (List.range' 1 retries).map (fun i => 500 * i)⟩ := by
  have h := fetchGo_always503 outcomes body hall retries retries 0 (by omega) (by omega)
  simpa [fetchWithRetry] using h

/-- Witness for C2 at the default `retries = 3`: four attempts, delays
500/1000/1500 ms, error raised. -/
theorem fetchWithRetry_always503_witness :
    fetchWithRetry 3 alwaysBusy = ⟨.error "HTTP 503", 4, [500, 1000, 1500]⟩ := by
  have h := fetchWithRetry_always503 3 alwaysBusy (fun _ => "busy") (fun _ => rfl)
  simpa using h

/-- If an attempt returns ok, its outcome was not retryable. -/
lemma retryable_false_of_ok (o : FetchOutcome) (b : String)
    (h : attemptResult o = .ok b) : retryable o = false := by
  cases hr : retryable o
  · rfl
  · obtain ⟨e, he⟩ := (attemptResult_error_iff o).mpr hr
    rw [h] at he
    exact absurd he (by simp)

/-- Full characterisation of the retry loop from attempt `a`: attempt
count bounds, raising iff the final attempt was retryable, every
non-final attempt retryable, and a non-retryable final response
returning its body. -/
lemma fetchGo_spec (outcomes : Nat → FetchOutcome) :
    ∀ (n retries a : Nat), retries - a = n → a ≤ retries →
      (a + 1 ≤ (fetchGo outcomes retries a).attempts ∧
        (fetchGo outcomes retries a).attempts ≤ retries + 1) ∧
      ((∃ e, (fetchGo outcomes retries a).result = .error e) ↔
        retryable (outcomes ((fetchGo outcomes retries a).attempts - 1)) = true) ∧
      (∀ i, a ≤ i → i < (fetchGo outcomes retries a).attempts - 1 →
        retryable (outcomes i) = true) ∧
      (∀ s b, outcomes ((fetchGo outcomes retries a).attempts - 1) = .response s b →
        ¬(500 ≤ s ∨ s = 429) → (fetchGo outcomes retries a).result = .ok b) := by
  intro n
  induction n with
  | zero =>
    intro retries a hn ha
    have hae : a = retries := by omega
    subst hae
    cases hres : attemptResult (outcomes a) with
    | ok body =>
      have heq : fetchGo outcomes a a = ⟨.ok body, a + 1, []⟩ := by
        rw [fetchGo]
        simp only [ha, dif_pos, hres]
      rw [heq]
      simp only [Nat.add_sub_cancel]
      refine ⟨⟨le_refl _, le_refl _⟩, ?_, ?_, ?_⟩
      · rw [retryable_false_of_ok (outcomes a) body hres]
        simp
      · intro i h1 h2; omega
      · intro s b hout hns
        rw [hout] at hres
        rw [attemptResult_ok_body s b hns] at hres
        simpa using hres.symm
    | error e =>
      have heq : fetchGo outcomes a a = ⟨.error e, a + 1, []⟩ := by
        rw [fetchGo]
        simp only [ha, dif_pos, hres]
        rw [if_pos (by omega)]
      rw [heq]
      simp only [Nat.add_sub_cancel]
      refine ⟨⟨le_refl _, le_refl _⟩, ?_, ?_, ?_⟩
      · rw [(attemptResult_error_iff (outcomes a)).mp ⟨e, hres⟩]
        simp
      · intro i h1 h2; omega
      · intro s b hout hns
        rw [hout] at hres
        rw [attemptResult_ok_body s b hns] at hres
        exact absurd hres (by simp)
  | succ n ih =>
    intro retries a hn ha
    have hlt : a < retries := by omega
    cases hres : attemptResult (outcomes a) with
    | ok body =>
      have heq : fetchGo outcomes retries a = ⟨.ok body, a + 1, []⟩ := by
        rw [fetchGo]
        simp only [ha, dif_pos, hres]
      rw [heq]
      simp only [Nat.add_sub_cancel]
      refine ⟨⟨le_refl _, by omega⟩, ?_, ?_, ?_⟩
      · rw [retryable_false_of_ok (outcomes a) body hres]
        simp
      · intro i h1 h2; omega
      · intro s b hout hns
        rw [hout] at hres
        rw [attemptResult_ok_body s b hns] at hres
        simpa using hres.symm
    | error e =>
      have heq : fetchGo outcomes retries a =
          ⟨(fetchGo outcomes retries (a + 1)).result,
           (fetchGo outcomes retries (a + 1)).attempts,
           500 * (a + 1) :: (fetchGo outcomes retries (a + 1)).delays⟩ := by
        rw [fetchGo]
        simp only [ha, dif_pos, hres]
        rw [if_neg (by omega)]
      obtain ⟨⟨hb1, hb2⟩, hiff, hpre, hfin⟩ := ih retries (a + 1) (by omega) (by omega)
      have hat : (fetchGo outcomes retries a).attempts = (fetchGo outcomes retries (a + 1)).attempts := by
        rw [heq]
      have hrr : (fetchGo outcomes retries a).result = (fetchGo outcomes retries (a + 1)).result := by
        rw [heq]
      rw [hat, hrr]
      refine ⟨⟨by omega, by omega⟩, hiff, ?_, hfin⟩
      intro i h1 h2
      rcases Nat.eq_or_lt_of_le h1 with h | h
      · exact h ▸ (attemptResult_error_iff (outcomes a)).mp ⟨e, hres⟩
      · exact hpre i h h2

/-- C3: `fetchWithRetry` raises iff its final attempt was retryable (a
transport failure, a status `>= 500`, or exactly 429); every non-final
attempt was retryable (so it never retries after a non-retryable
response); a non-retryable final response — any other status, 404
included — has its body text returned; and a non-retryable first
response means a single attempt (no retry at all). -/
theorem fetchWithRetry_policy (retries : Nat) (outcomes : Nat → FetchOutcome) :
    (1 ≤ (fetchWithRetry retries outcomes).attempts ∧
      (fetchWithRetry retries outcomes).attempts ≤ retries + 1) ∧
    ((∃ e, (fetchWithRetry retries outcomes).result = .error e) ↔
      retryable (outcomes ((fetchWithRetry retries outcomes).attempts - 1)) = true) ∧
    (∀ i, i < (fetchWithRetry retries outcomes).attempts - 1 →
      retryable (outcomes i) = true) ∧
    (∀ s b, outcomes ((fetchWithRetry retries outcomes).attempts - 1) = .response s b →
      ¬(500 ≤ s ∨ s = 429) → (fetchWithRetry retries outcomes).result = .ok b) ∧
    (retryable (outcomes 0) = false → (fetchWithRetry retries outcomes).attempts = 1) := by
  obtain ⟨⟨hb1, hb2⟩, hiff, hpre, hfin⟩ :=
    fetchGo_spec outcomes retries retries 0 (by omega) (by omega)
  refine ⟨⟨hb1, hb2⟩, hiff, fun i hi => hpre i (by omega) hi, hfin, ?_⟩
  intro h0
  by_contra hne
  have h1 : 0 < (fetchWithRetry retries outcomes).attempts - 1 := by
    have := hb1
    simp only [fetchWithRetry] at *
    omega
  have := hpre 0 (by omega) (by simpa [fetchWithRetry] using h1)
  rw [h0] at this
  exact absurd this (by simp)

/-- Witness for C3: a constant-404 endpoint returns the body on the
first attempt without retrying or raising. -/
theorem fetchWithRetry_policy_witness :
    (fetchWithRetry 3 always404).result = .ok "nf" ∧
      (fetchWithRetry 3 always404).attempts = 1 := by
  obtain ⟨_, _, _, hfin, hone⟩ := fetchWithRetry_policy 3 always404
  exact ⟨hfin 404 "nf" rfl (by omega), hone (by decide)⟩

/-! Orchestrator statistics. -/

/-- The three worker outcome classes partition any outcome list, and the
saved records are exactly the saved-class outcomes. -/
lemma outcomes_partition (l : List WorkerOutcome) :
    l.countP isSaved + l.countP isFiltered + l.countP isFailed = l.length ∧
      (l.filterMap toSaved).length = l.countP isSaved := by
  induction l with
  | nil => simp
  | cons o t ih =>
    obtain ⟨h1, h2⟩ := ih
    cases o <;>
      simp [List.countP_cons, List.filterMap_cons, isSaved, isFiltered, isFailed, toSaved,
        h1, h2] <;> omega

/-- C10: in a completed crawl, `skipped` counts exactly the candidates
rejected by the two semester-filter checks; a candidate whose detail
fetch raised is counted in neither `totalSaved` nor `skipped`, so the
candidate count satisfies `totalFound = totalSaved + skipped + failed`,
hence `totalFound >= totalSaved + skipped`, strictly whenever at least
one detail fetch failed. -/
theorem crawl_stats (pages : Stub → SubjectPages) (onlySemester1 : Bool) (items : List Stub) :
    (crawlResults pages onlySemester1 items).length
        = (crawlOutcomes pages onlySemester1 items).countP isSaved ∧
    (crawlOutcomes pages onlySemester1 items).countP isSaved
        + (crawlOutcomes pages onlySemester1 items).countP isFiltered
        + (crawlOutcomes pages onlySemester1 items).countP isFailed = items.length ∧
    (crawlOutcomes pages onlySemester1 items).countP isSaved
        + (crawlOutcomes pages onlySemester1 items).countP isFiltered ≤ items.length ∧
    (1 ≤ (crawlOutcomes pages onlySemester1 items).countP isFailed →
      (crawlOutcomes pages onlySemester1 items).countP isSaved
          + (crawlOutcomes pages onlySemester1 items).countP isFiltered < items.length) := by
  obtain ⟨h1, h2⟩ := outcomes_partition (crawlOutcomes pages onlySemester1 items)
  have hlen : (crawlOutcomes pages onlySemester1 items).length = items.length := by
    simp [crawlOutcomes]
  refine ⟨h2, by omega, by omega, by omega⟩

/-- Witness for C10: one candidate whose detail fetch always fails —
nothing saved, nothing skipped, `totalFound` strictly exceeds their
sum. -/
theorem crawl_stats_witness :
    1 ≤ (crawlOutcomes pagesDetailDown true [stubMast]).countP isFailed ∧
      (crawlOutcomes pagesDetailDown true [stubMast]).countP isSaved
          + (crawlOutcomes pagesDetailDown true [stubMast]).countP isFiltered
        < [stubMast].length := by
  refine ⟨by decide, ?_⟩
  exact (crawl_stats pagesDetailDown true [stubMast]).2.2.2 (by decide)

/-! Assessment tables: the zero-row guard. -/

/-- A table surviving `tableOf` has at least one row. -/
lemma tableOf_rows (d : TableData) (t : AssessmentTable) (h : tableOf d = some t) :
    t.rows ≠ [] := by
  simp only [tableOf] at h
  split_ifs at h <;>
    (injection h with h; subst h; simp_all [List.isEmpty_iff])

/-- Every table emitted by the sibling walk has at least one row. -/
lemma walkTables_rows (l : Doc) (t : AssessmentTable) (h : t ∈ walkTables l) :
    t.rows ≠ [] := by
  induction l with
  | nil => simp [walkTables] at h
  | cons e rest ih =>
    cases e with
    | heading lv txt =>
      simp only [walkTables, stopsTables] at h
      split_ifs at h with hs
      · simp at h
      · exact ih h
    | para txt =>
      simp only [walkTables, stopsTables] at h
      exact ih (by simpa using h)
    | table d =>
      simp only [walkTables, stopsTables] at h
      cases htab : tableOf d with
      | none =>
        simp only [htab] at h
        exact ih (by simpa using h)
      | some t' =>
        simp only [htab] at h
        rcases List.mem_cons.mp (by simpa using h) with rfl | hmem
        · exact tableOf_rows d t htab
        · exact ih hmem

/-- C7: every `AssessmentTable` returned by `parseAssessmentTables` has
at least one row; a table yielding zero populated rows is dropped. -/
theorem parseAssessmentTables_rows (doc : Doc) (semesterLabel : String)
    (t : AssessmentTable) (h : t ∈ parseAssessmentTables doc semesterLabel) :
    1 ≤ t.rows.length := by
  simp only [parseAssessmentTables] at h
  cases haf : afterFirst (isH34Match semesterLabel) doc with
  | none => rw [haf] at h; simp at h
  | some rest =>
    rw [haf] at h
    have := walkTables_rows rest t h
    cases hr : t.rows with
    | nil => exact absurd hr this
    | cons a l => simp

/-- Witness for C7: the concrete one-table document yields `tblEssay`,
which has a row. -/
theorem parseAssessmentTables_rows_witness :
    tblEssay ∈ parseAssessmentTables docOneTable "Semester 1" ∧ 1 ≤ tblEssay.rows.length := by
  refine ⟨by decide, ?_⟩
  exact parseAssessmentTables_rows docOneTable "Semester 1" tblEssay (by decide)

/-! Email extraction: deduplication is by exact string equality. -/

/-- JS `Set` insertion keeps an accumulator duplicate-free. -/
lemma addAll_nodup (l : List String) : ∀ acc : List String, acc.Nodup → (addAll acc l).Nodup := by
  induction l with
  | nil => intro acc h; simpa [addAll] using h
  | cons x xs ih =>
    intro acc h
    have hstep : addAll acc (x :: xs) =
        addAll (if acc.contains x = true then acc else acc ++ [x]) xs := rfl
    rw [hstep]
    by_cases hc : acc.contains x = true
    · rw [if_pos hc]; exact ih acc h
    · rw [if_neg hc]
      refine ih _ ?_
      have hx : x ∉ acc := by simpa using hc
      simp [List.nodup_append, h, hx]

/-- The email sibling walk keeps its accumulator duplicate-free. -/
lemma collectEmails_nodup (l : Doc) : ∀ acc : List String, acc.Nodup → (collectEmails l acc).Nodup := by
  induction l with
  | nil => intro acc h; simpa [collectEmails] using h
  | cons e rest ih =>
    intro acc h
    simp only [collectEmails]
    split_ifs
    · exact h
    · exact ih _ (addAll_nodup _ acc h)

/-- `parseSemesterEmails` returns a duplicate-free list (exact string
equality). -/
lemma parseSemesterEmails_nodup (doc : Doc) (label : String) :
    (parseSemesterEmails doc label).Nodup := by
  simp only [parseSemesterEmails]
  cases afterFirst (isH5Match label) doc with
  | none => simp
  | some rest => exact collectEmails_nodup rest [] (by simp)

/-- The emails a record stores are duplicate-free. -/
lemma finalEmails_nodup (pg : SubjectPages) : (finalEmails pg).Nodup := by
  simp only [finalEmails]
  split_ifs
  · cases pg.datesTimes with
    | ok ddoc => exact parseSemesterEmails_nodup ddoc "Semester 1"
    | error e => exact List.nodup_nil
  · simp only [assessExtract]
    cases pg.assessment with
    | ok adoc => exact parseSemesterEmails_nodup adoc "Semester 1"
    | error e => exact List.nodup_nil

/-- Saved outcomes come from record assembly. -/
lemma processItem_saved (pages : Stub → SubjectPages) (onlySemester1 : Bool)
    (item : Stub) (r : SubjectRecord)
    (h : processItem pages onlySemester1 item = .saved r) :
    ∃ d, (pages item).detail = .ok d ∧ r = assembleRecord item d (pages item) := by
  simp only [processItem] at h
  split_ifs at h
  cases hd : (pages item).detail with
  | error e =>
    simp only [hd] at h
    exact (WorkerOutcome.noConfusion h)
  | ok d =>
    simp only [hd] at h
    split_ifs at h
    injection h with h
    exact ⟨d, rfl, h.symm⟩

/-- C1 (amended): the `instructorEmails` list of every emitted
`SubjectRecord` is duplicate-free under exact (case-sensitive) string
comparison — the JS `Set` dedup the worker uses; case-variant spellings
of one address may however coexist (see the counterexample). -/
theorem instructorEmails_nodup (pages : Stub → SubjectPages) (onlySemester1 : Bool)
    (item : Stub) (r : SubjectRecord)
    (h : processItem pages onlySemester1 item = .saved r) :
    r.instructorEmails.Nodup := by
  obtain ⟨d, _, rfl⟩ := processItem_saved pages onlySemester1 item r h
  exact finalEmails_nodup (pages item)

/-- Witness for C1 (amended) at the case-variant concrete input. -/
theorem instructorEmails_nodup_witness :
    processItem pagesCaseVariant true stubMast = .saved recCaseVariant ∧
      recCaseVariant.instructorEmails.Nodup := by
  refine ⟨by decide, ?_⟩
  exact instructorEmails_nodup pagesCaseVariant true stubMast recCaseVariant (by decide)

/-- Counterexample for C1 as stated: the emitted record keeps both
case-variant spellings `X@y.com` and `x@Y.com`, two distinct entries
that are equal under case-insensitive comparison. -/
theorem instructorEmails_case_counterexample :
    processItem pagesCaseVariant true stubMast = .saved recCaseVariant ∧
      recCaseVariant.instructorEmails = ["X@y.com", "x@Y.com"] ∧
      "X@y.com" ≠ "x@Y.com" ∧
      "X@y.com".data.map Char.toLower = "x@Y.com".data.map Char.toLower := by
  refine ⟨by decide, by decide, by decide, by decide⟩

/-! `parseMaxPage`. -/

/-- `foldl max` dominates the seed and every element. -/
lemma foldl_max_ge (l : List Nat) : ∀ a : Nat, a ≤ l.foldl Nat.max a ∧ ∀ x ∈ l, x ≤ l.foldl Nat.max a := by
  induction l with
  | nil => intro a; simp
  | cons y ys ih =>
    intro a
    obtain ⟨h1, h2⟩ := ih (Nat.max a y)
    refine ⟨le_trans (Nat.le_max_left a y) h1, ?_⟩
    intro x hx
    rcases List.mem_cons.mp hx with rfl | hx
    · exact le_trans (Nat.le_max_right a x) h1
    · exact h2 x hx

/-- `foldl max` is the seed or an element. -/
lemma foldl_max_mem (l : List Nat) : ∀ a : Nat, l.foldl Nat.max a = a ∨ l.foldl Nat.max a ∈ l := by
  induction l with
  | nil => intro a; simp
  | cons y ys ih =>
    intro a
    rcases ih (Nat.max a y) with h | h
    · by_cases hay : a ≤ y
      · have hm : Nat.max a y = y := Nat.max_eq_right hay
        right
        rw [List.foldl_cons, h, hm]
        exact List.mem_cons_self y ys
      · have hm : Nat.max a y = a := Nat.max_eq_left (by omega)
        left
        rw [List.foldl_cons, h, hm]
    · exact Or.inr (List.mem_cons_of_mem y h)

/-- C5 (amended): `parseMaxPage` is total, returns 1 when no `page=N`
token occurs, and otherwise returns the maximum observed token — which
is itself one of the tokens, so it is 0 exactly when every observed
token is 0. -/
theorem parseMaxPage_spec (html : String) :
    (pageTokens html = [] → parseMaxPage html = 1) ∧
    (pageTokens html ≠ [] →
      parseMaxPage html ∈ pageTokens html ∧
        ∀ p ∈ pageTokens html, p ≤ parseMaxPage html) := by
  constructor
  · intro h
    simp [parseMaxPage, h]
  · intro h
    have hne : (pageTokens html).isEmpty = false := by
      simpa [List.isEmpty_iff] using h
    constructor
    · simp only [parseMaxPage, hne, Bool.false_eq_true, if_false]
      rcases foldl_max_mem (pageTokens html) 0 with h0 | hmem
      · rw [h0]
        cases hp : pageTokens html with
        | nil => exact absurd hp h
        | cons y ys =>
          have hy : y ≤ (pageTokens html).foldl Nat.max 0 := by
            exact (foldl_max_ge (pageTokens html) 0).2 y (by rw [hp]; exact List.mem_cons_self y ys)
          rw [h0] at hy
          have : y = 0 := Nat.le_zero.mp hy
          rw [← this]
          exact List.mem_cons_self y ys
      · exact hmem
    · intro p hp
      simp only [parseMaxPage, hne, Bool.false_eq_true, if_false]
      exact (foldl_max_ge (pageTokens html) 0).2 p hp

/-- Witness for C5 (amended): tokens 2 and 7 give maximum 7. -/
theorem parseMaxPage_spec_witness :
    pageTokens "page=2 page=7" ≠ [] ∧ parseMaxPage "page=2 page=7" = 7 ∧
      parseMaxPage "page=2 page=7" ∈ pageTokens "page=2 page=7" := by
  refine ⟨by decide, by decide, ?_⟩
  exact ((parseMaxPage_spec "page=2 page=7").2 (by decide)).1

/-- Counterexample for C5 as stated: on input `page=0` the function
returns 0, so "never returns 0" fails. -/
theorem parseMaxPage_zero_counterexample : parseMaxPage "page=0" = 0 := by decide

/-! `parseSemesterEmails` section boundaries. -/

/-- Walking past non-breaking siblings folds their emails into the
accumulator. -/
lemma collectEmails_append (xs : Doc) :
    ∀ (rest : Doc) (acc : List String), (∀ e ∈ xs, stopsEmails e = false) →
      collectEmails (xs ++ rest) acc = collectEmails rest (accEmails xs acc) := by
  induction xs with
  | nil => intro rest acc _; simp [accEmails]
  | cons e t ih =>
    intro rest acc hstop
    have he : stopsEmails e = false := hstop e (List.mem_cons_self e t)
    simp only [List.cons_append, collectEmails, he, Bool.false_eq_true, if_false,
      List.append_eq]
    rw [ih rest _ (fun x hx => hstop x (List.mem_cons_of_mem e hx))]
    simp [accEmails]

/-- C6 (amended): from the first matching `h5`, the email walk collects
from every following sibling until an `h5`, `h3` or `h2` heading, which
terminates it; an `h4` (or `h1`/`h6`) heading does NOT terminate the
walk — its own text and the siblings after it are still scanned for
emails, until a terminating heading. -/
theorem parseSemesterEmails_boundary (label ht t : String) (lv : Nat) (xs ys : Doc)
    (hmatch : containsCI ht label = true)
    (hstop : ∀ e ∈ xs, stopsEmails e = false) :
    parseSemesterEmails (Elem.heading 5 ht :: (xs ++ Elem.heading lv t :: ys)) label
      = if lv = 5 ∨ lv = 3 ∨ lv = 2 then accEmails xs []
        else collectEmails ys (addAll (accEmails xs []) (extractEmails t)) := by
  have hh5 : isH5Match label (Elem.heading 5 ht) = true := by
    simp [isH5Match, hmatch]
  simp only [parseSemesterEmails, afterFirst, hh5, if_true]
  rw [collectEmails_append xs (Elem.heading lv t :: ys) [] hstop]
  by_cases hlv : lv = 5 ∨ lv = 3 ∨ lv = 2
  · have hs : stopsEmails (Elem.heading lv t) = true := by
      simp only [stopsEmails]
      rcases hlv with h | h | h <;> simp [h]
    simp [collectEmails, hs, hlv]
  · have hs : stopsEmails (Elem.heading lv t) = false := by
      simp only [stopsEmails]
      push_neg at hlv
      simp [hlv.1, hlv.2.1, hlv.2.2]
    simp [collectEmails, hs, hlv, elemText]

/-- Witness for C6 (amended): a terminating `h3` cuts off the walk. -/
theorem parseSemesterEmails_boundary_witness :
    containsCI "Semester 1" "Semester 1" = true ∧
      (∀ e ∈ [Elem.para "reach a@q.com"], stopsEmails e = false) ∧
      parseSemesterEmails
          (Elem.heading 5 "Semester 1" ::
            ([Elem.para "reach a@q.com"] ++ Elem.heading 3 "Other" :: [Elem.para "z@w.com"]))
          "Semester 1"
        = accEmails [Elem.para "reach a@q.com"] [] := by
  refine ⟨by decide, by decide, ?_⟩
  have h := parseSemesterEmails_boundary "Semester 1" "Semester 1" "Other" 3
    [Elem.para "reach a@q.com"] [Elem.para "z@w.com"] (by decide) (by decide)
  simpa using h

/-- Counterexample for C6 as stated: `docAfterH4` has an `h4` heading
(higher level than the period `h5`) between the period section and a
later email, yet that email is still collected. -/
theorem parseSemesterEmails_h4_counterexample :
    "b@y.com" ∈ parseSemesterEmails docAfterH4 "Semester 1" ∧
      parseSemesterEmails docAfterH4 "Semester 1" = ["a@x.com", "b@y.com"] := by
  refine ⟨by decide, by decide⟩

/-! `cleanText` on blank-line runs. -/

/-- `takeWhile` over a replicated satisfying character stops at a
non-satisfying terminator. -/
lemma takeWhile_replicate_append (p : Char → Bool) (c d : Char)
    (hc : p c = true) (hd : p d = false) :
    ∀ j, ((List.replicate j c ++ [d]).takeWhile p) = List.replicate j c := by
  intro j
  induction j with
  | zero => simp [List.takeWhile_cons, hd]
  | succ j ih => simp [List.replicate_succ, List.takeWhile_cons, hc, ih]

/-- Dropping the replicated run leaves the terminator. -/
lemma drop_replicate_append (c d : Char) (j : Nat) :
    (List.replicate j c ++ [d]).drop j = [d] := by
  have h := List.drop_left (List.replicate j c) [d]
  rwa [List.length_replicate] at h

/-- Dropping one fewer leaves one run character and the terminator. -/
lemma drop_replicate_append_pred (c d : Char) (i : Nat) :
    (List.replicate (i + 2) c ++ [d]).drop (i + 1) = [c, d] := by
  have hsplit : List.replicate (i + 2) c = List.replicate (i + 1) c ++ [c] := by
    rw [← List.replicate_succ' (i + 1) c]
  rw [hsplit, List.append_assoc]
  have h := List.drop_left (List.replicate (i + 1) c) ([c] ++ [d])
  rwa [List.length_replicate] at h

/-- `/\s+\n/` does not match at a non-whitespace character. -/
lemma matchAt_wsNl_nonWs (c : Char) (rest : List Char) (hc : jsWs c = false) :
    matchAt wsNlRE (c :: rest) = none := by
  simp [matchAt, wsNlRE, matchRE, List.takeWhile_cons, hc]

/-- At a run of `j >= 2` newlines followed by `b`, greedy `/\s+\n/`
matches the whole run (the class consumes `j-1` newlines, the literal
the last one). -/
lemma matchAt_wsNl_run (i : Nat) :
    matchAt wsNlRE (List.replicate (i + 2) '\n' ++ ['b']) = some (i + 2) := by
  have h1 : ((List.replicate (i + 2) '\n' ++ ['b']).takeWhile jsWs) = List.replicate (i + 2) '\n' :=
    takeWhile_replicate_append jsWs '\n' 'b' (by decide) (by decide) (i + 2)
  have h2 := drop_replicate_append '\n' 'b' (i + 2)
  have h3 := drop_replicate_append_pred '\n' 'b' i
  simp only [matchAt, wsNlRE, matchRE, h1, List.length_replicate]
  rw [if_neg (by omega)]
  have hc : i + 2 - 1 + 1 = i + 2 := by omega
  rw [hc]
  rw [tryLens, h2]
  simp only [matchRE]
  rw [if_neg (by decide)]
  have hd : i + 2 - 1 = i + 1 := by omega
  rw [hd]
  rw [tryLens, h3]
  simp [matchRE]

/-- One-step unfolding of the replace scan on a cons cell. -/
lemma replaceScan_cons (re : RE) (repl : List Char) (fuel : Nat) (c : Char) (rest : List Char) :
    replaceScan re repl (fuel + 1) (c :: rest) =
      match matchAt re (c :: rest) with
      | some (n + 1) => repl ++ replaceScan re repl fuel ((c :: rest).drop (n + 1))
      | some 0 => repl ++ c :: replaceScan re repl fuel rest
      | none => c :: replaceScan re repl fuel rest := rfl

/-- The replace scan on the empty list. -/
lemma replaceScan_nil (re : RE) (repl : List Char) (fuel : Nat) :
    replaceScan re repl (fuel + 1) [] = [] := rfl

/-- The first replacement pass (`\s+\n -> \n`) collapses
`a<newline run>b` to `a\nb`. -/
lemma r1_blankRun (i : Nat) :
    replaceAllRE wsNlRE ['\n'] ('a' :: (List.replicate (i + 2) '\n' ++ ['b'])) =
      ['a', '\n', 'b'] := by
  have hlen : ('a' :: (List.replicate (i + 2) '\n' ++ ['b'])).length = i + 4 := by simp
  have ha : matchAt wsNlRE ('a' :: (List.replicate (i + 2) '\n' ++ ['b'])) = none :=
    matchAt_wsNl_nonWs 'a' _ (by decide)
  have hb : matchAt wsNlRE ['b'] = none := matchAt_wsNl_nonWs 'b' [] (by decide)
  have e1 : replaceScan wsNlRE ['\n'] (i + 4) ('a' :: (List.replicate (i + 2) '\n' ++ ['b']))
      = 'a' :: replaceScan wsNlRE ['\n'] (i + 3) (List.replicate (i + 2) '\n' ++ ['b']) := by
    rw [show i + 4 = (i + 3) + 1 from rfl, replaceScan_cons, ha]
  have hsplit : List.replicate (i + 2) '\n' ++ ['b'] = '\n' :: (List.replicate (i + 1) '\n' ++ ['b']) := by
    simp [List.replicate_succ]
  have e2 : replaceScan wsNlRE ['\n'] (i + 3) (List.replicate (i + 2) '\n' ++ ['b'])
      = '\n' :: replaceScan wsNlRE ['\n'] (i + 2) ['b'] := by
    rw [hsplit, show i + 3 = (i + 2) + 1 from rfl, replaceScan_cons, ← hsplit,
      matchAt_wsNl_run i]
    show ['\n'] ++ replaceScan wsNlRE ['\n'] (i + 2)
        ((List.replicate (i + 2) '\n' ++ ['b']).drop (i + 2))
      = '\n' :: replaceScan wsNlRE ['\n'] (i + 2) ['b']
    rw [drop_replicate_append]
    rfl
  have e3 : replaceScan wsNlRE ['\n'] (i + 2) ['b'] = ['b'] := by
    rw [show i + 2 = (i + 1) + 1 from rfl, replaceScan_cons, hb]
    show 'b' :: replaceScan wsNlRE ['\n'] (i + 1) [] = ['b']
    rw [replaceScan_nil]
  simp only [replaceAllRE, hlen]
  rw [e1, e2, e3]

/-- C4 (amended): `cleanText` collapses a paragraph break of any number
`k >= 2` of consecutive newlines (i.e. one or more blank lines,
covering the claimed 3+ blank lines) to a SINGLE newline: no blank line
survives in the output, because the first replacement pass `\s+\n -> \n`
already swallows the whole run before the `\n{3,} -> \n\n` rule can
see it. -/
theorem cleanText_blankRun (k : Nat) (hk : 2 ≤ k) :
    cleanTextS (String.mk ('a' :: (List.replicate k '\n' ++ ['b']))) = "a\nb" := by
  obtain ⟨i, rfl⟩ : ∃ i, k = i + 2 := ⟨k - 2, by omega⟩
  show String.mk (cleanTextL ('a' :: (List.replicate (i + 2) '\n' ++ ['b']))) = "a\nb"
  have h2 : cleanTextL ('a' :: (List.replicate (i + 2) '\n' ++ ['b'])) = ['a', '\n', 'b'] := by
    simp only [cleanTextL, r1_blankRun i]
    decide
  rw [h2]

/-- Witness for C4 (amended) at `k = 5` (four blank lines). -/
theorem cleanText_blankRun_witness :
    (2 ≤ 5) ∧ cleanTextS (String.mk ('a' :: (List.replicate 5 '\n' ++ ['b']))) = "a\nb" :=
  ⟨by decide, cleanText_blankRun 5 (by decide)⟩

/-- Counterexample for C4 as stated: three blank lines (four newlines)
between `a` and `b` come out as a single newline — the output contains
no blank line (no two consecutive newlines) at that position. -/
theorem cleanText_blankLine_counterexample :
    cleanTextS "a\n\n\n\nb" = "a\nb" ∧
      listHasSub (cleanTextS "a\n\n\n\nb").data ['\n', '\n'] = false := by
  refine ⟨by decide, by decide⟩

/-! Stub deduplication (`uniqueItems` map). -/

/-- Inserting a key makes it look up to the new value. -/
lemma mapLookup_mapInsert_self (m : List (String × Stub)) (k : String) (v : Stub) :
    mapLookup (mapInsert m k v) k = some v := by
  induction m with
  | nil => simp [mapInsert, mapLookup, List.find?]
  | cons p rest ih =>
    obtain ⟨k', v'⟩ := p
    by_cases hk : k' = k
    · simp [mapInsert, hk, mapLookup, List.find?]
    · simpa [mapInsert, mapLookup, List.find?, hk] using ih

/-- Inserting a key leaves other keys' lookups unchanged. -/
lemma mapLookup_mapInsert_ne (m : List (String × Stub)) (k k' : String) (v : Stub)
    (hne : k ≠ k') : mapLookup (mapInsert m k v) k' = mapLookup m k' := by
  induction m with
  | nil => simp [mapInsert, mapLookup, List.find?, hne]
  | cons p rest ih =>
    obtain ⟨k0, v0⟩ := p
    by_cases hk : k0 = k
    · subst hk
      simp [mapInsert, mapLookup, List.find?, hne]
    · by_cases hk' : k0 = k'
      · have hne2 : ¬(k' = k) := by rw [← hk']; exact hk
        simp [mapInsert, mapLookup, List.find?, hk, hk', hne2]
      · simpa [mapInsert, mapLookup, List.find?, hk, hk'] using ih

/-- Lookup after the `uniqueItems` fold: the last stub with that code in
the processed list, else whatever the starting map had. -/
lemma mapLookup_buildMapFrom (k : String) (hk : k ≠ "") :
    ∀ (l : List Stub) (m : List (String × Stub)),
      mapLookup (buildMapFrom m l) k =
        match (l.filter (fun s => s.code = k)).getLast? with
        | some s => some s
        | none => mapLookup m k := by
  intro l
  induction l with
  | nil => intro m; simp [buildMapFrom]
  | cons s rest ih =>
    intro m
    have hstep : buildMapFrom m (s :: rest) =
        buildMapFrom (if s.code = "" then m else mapInsert m s.code s) rest := rfl
    rw [hstep]
    by_cases hcode : s.code = k
    · have hne : s.code ≠ "" := by rw [hcode]; exact hk
      rw [if_neg hne]
      rw [ih (mapInsert m s.code s)]
      have hfil : (s :: rest).filter (fun s => s.code = k) =
          s :: rest.filter (fun s => s.code = k) := by
        simp [List.filter_cons, hcode]
      rw [hfil]
      cases hrest : rest.filter (fun s => s.code = k) with
      | cons a l2 =>
        rw [List.getLast?_cons_cons]
        cases hlast : (a :: l2).getLast? with
        | some x => rfl
        | none => simp at hlast
      | nil =>
        simp only [List.getLast?_singleton]
        rw [hcode]
        exact mapLookup_mapInsert_self m k s
    · have hfil : (s :: rest).filter (fun s => s.code = k) =
          rest.filter (fun s => s.code = k) := by
        simp [List.filter_cons, hcode]
      rw [hfil]
      by_cases hempty : s.code = ""
      · rw [if_pos hempty]
        exact ih m
      · rw [if_neg hempty]
        rw [ih (mapInsert m s.code s)]
        cases (rest.filter (fun s => s.code = k)).getLast? with
        | some s' => rfl
        | none => exact mapLookup_mapInsert_ne m s.code k s hcode

/-- Every entry of the `uniqueItems` map stores a stub whose code is its
key. -/
lemma buildMapFrom_key_code :
    ∀ (l : List Stub) (m : List (String × Stub)), (∀ p ∈ m, p.2.code = p.1) →
      ∀ p ∈ buildMapFrom m l, p.2.code = p.1 := by
  intro l
  induction l with
  | nil => intro m hm; simpa [buildMapFrom] using hm
  | cons s rest ih =>
    intro m hm
    have hstep : buildMapFrom m (s :: rest) =
        buildMapFrom (if s.code = "" then m else mapInsert m s.code s) rest := rfl
    rw [hstep]
    by_cases hempty : s.code = ""
    · rw [if_pos hempty]; exact ih m hm
    · rw [if_neg hempty]
      refine ih _ ?_
      clear hstep ih
      induction m with
      | nil => simp [mapInsert]
      | cons p0 m0 ihm =>
        obtain ⟨k0, v0⟩ := p0
        intro q hq
        by_cases hk : k0 = s.code
        · simp only [mapInsert, hk, if_pos rfl] at hq
          rcases List.mem_cons.mp hq with rfl | hq
          · simp [hk.symm]
          · exact hm q (List.mem_cons_of_mem _ hq)
        · simp only [mapInsert, hk, if_false] at hq
          rcases List.mem_cons.mp hq with rfl | hq
          · exact hm _ (List.mem_cons_self _ _)
          · exact ihm (fun p hp => hm p (List.mem_cons_of_mem _ hp)) q hq

/-- Inserting does not change the key set beyond adding the new key. -/
lemma mapInsert_keys (m : List (String × Stub)) (k : String) (v : Stub) :
    (mapInsert m k v).map (fun p => p.1) = m.map (fun p => p.1) ∨
      (mapInsert m k v).map (fun p => p.1) = m.map (fun p => p.1) ++ [k] := by
  induction m with
  | nil => right; simp [mapInsert]
  | cons p rest ih =>
    obtain ⟨k0, v0⟩ := p
    by_cases hk : k0 = k
    · left; simp [mapInsert, hk]
    · rcases ih with h | h
      · left; simp [mapInsert, hk, h]
      · right; simp [mapInsert, hk, h]

/-- A key absent from the map looks up to `none`. -/
lemma mapLookup_eq_none (m : List (String × Stub)) (k : String)
    (h : k ∉ m.map (fun p => p.1)) : mapLookup m k = none := by
  induction m with
  | nil => simp [mapLookup, List.find?]
  | cons p rest ih =>
    obtain ⟨k0, v0⟩ := p
    simp only [List.map_cons, List.mem_cons] at h
    push_neg at h
    have hk : ¬(k0 = k) := fun hc => h.1 hc.symm
    simpa [mapLookup, List.find?, hk] using ih h.2

/-- The filtered values of a key-coded, key-unique association list are
exactly the looked-up entry. -/
lemma values_filter_eq_lookup (k : String) :
    ∀ m : List (String × Stub), (m.map (fun p => p.1)).Nodup →
      (∀ p ∈ m, p.2.code = p.1) →
      (m.map (fun p => p.2)).filter (fun s => s.code = k) = (mapLookup m k).toList := by
  intro m
  induction m with
  | nil => intro _ _; simp [mapLookup, List.find?]
  | cons p rest ih =>
    intro hnd hcode
    obtain ⟨k0, v0⟩ := p
    have hv0 : v0.code = k0 := hcode (k0, v0) (List.mem_cons_self _ _)
    simp only [List.map_cons, List.nodup_cons] at hnd
    by_cases hk : k0 = k
    · subst hk
      have hrest : mapLookup rest k0 = none :=
        mapLookup_eq_none rest k0 hnd.1
      have hfrest : (rest.map (fun p => p.2)).filter (fun s => s.code = k0) = [] := by
        rw [ih hnd.2 (fun p hp => hcode p (List.mem_cons_of_mem _ hp)), hrest]
        rfl
      simp [List.filter_cons, hv0, hfrest, mapLookup, List.find?]
    · have hv0k : ¬(v0.code = k) := by rw [hv0]; exact hk
      simp only [List.map_cons, List.filter_cons, hv0k, decide_eq_true_eq, if_neg hv0k]
      rw [ih hnd.2 (fun p hp => hcode p (List.mem_cons_of_mem _ hp))]
      simp [mapLookup, List.find?, hk]

/-- Inserting preserves key uniqueness. -/
lemma mapInsert_keys_nodup (k : String) (v : Stub) :
    ∀ m : List (String × Stub), (m.map (fun p => p.1)).Nodup →
      ((mapInsert m k v).map (fun p => p.1)).Nodup := by
  intro m
  induction m with
  | nil => intro _; simp [mapInsert]
  | cons p rest ih =>
    obtain ⟨k0, v0⟩ := p
    intro hnd
    simp only [List.map_cons, List.nodup_cons] at hnd
    by_cases hk : k0 = k
    · subst hk
      simp only [mapInsert, eq_self_iff_true, if_true, List.map_cons, List.nodup_cons]
      exact ⟨hnd.1, hnd.2⟩
    · simp only [mapInsert, hk, if_false, List.map_cons, List.nodup_cons]
      refine ⟨?_, ih hnd.2⟩
      rcases mapInsert_keys rest k v with h | h
      · rw [h]; exact hnd.1
      · rw [h]
        simp only [List.mem_append, List.mem_singleton]
        rintro (hc | rfl)
        · exact hnd.1 hc
        · exact hk rfl

/-- The `uniqueItems` fold preserves key uniqueness. -/
lemma buildMapFrom_keys_nodup :
    ∀ (l : List Stub) (m : List (String × Stub)), (m.map (fun p => p.1)).Nodup →
      ((buildMapFrom m l).map (fun p => p.1)).Nodup := by
  intro l
  induction l with
  | nil => intro m hm; simpa [buildMapFrom] using hm
  | cons s rest ih =>
    intro m hm
    have hstep : buildMapFrom m (s :: rest) =
        buildMapFrom (if s.code = "" then m else mapInsert m s.code s) rest := rfl
    rw [hstep]
    by_cases hempty : s.code = ""
    · rw [if_pos hempty]; exact ih m hm
    · rw [if_neg hempty]; exact ih _ (mapInsert_keys_nodup s.code s m hm)

/-- The deduplicated candidate list carries pairwise-distinct codes. -/
lemma dedupStubs_codes_nodup (l : List Stub) :
    ((dedupStubs l).map (fun s => s.code)).Nodup := by
  have hcode := buildMapFrom_key_code l [] (by simp)
  have hkeys := buildMapFrom_keys_nodup l [] (by simp)
  have hmap : (dedupStubs l).map (fun s => s.code) =
      (buildMapFrom [] l).map (fun p => p.1) := by
    simp only [dedupStubs, List.map_map]
    exact List.map_congr_left (fun p hp => hcode p hp)
  rw [hmap]
  exact hkeys

/-- C8 core: for a nonempty code, the stubs with that code surviving
deduplication are exactly the last accumulated occurrence. -/
lemma dedupStubs_filter (k : String) (hk : k ≠ "") (l : List Stub) :
    (dedupStubs l).filter (fun s => s.code = k) = (lastStubWith k l).toList := by
  have h1 := values_filter_eq_lookup k (buildMapFrom [] l)
    (buildMapFrom_keys_nodup l [] (by simp)) (buildMapFrom_key_code l [] (by simp))
  have h2 := mapLookup_buildMapFrom k hk l []
  have h3 : mapLookup ([] : List (String × Stub)) k = none := by
    simp [mapLookup, List.find?]
  rw [h3] at h2
  have h4 : mapLookup (buildMapFrom [] l) k = (l.filter (fun s => s.code = k)).getLast? := by
    rw [h2]
    cases (l.filter (fun s => s.code = k)).getLast? <;> rfl
  rw [show dedupStubs l = (buildMapFrom [] l).map (fun p => p.2) from rfl, h1, h4]
  rfl

/-- A page containing the code has a nonempty filtered stub list. -/
lemma filter_ne_nil_of_pageHasCode (code : String) (pg : List Stub)
    (h : pageHasCode code pg = true) : pg.filter (fun s => s.code = code) ≠ [] := by
  obtain ⟨s, hs, hsc⟩ := List.any_eq_true.mp h
  have : s ∈ pg.filter (fun s => s.code = code) := List.mem_filter.mpr ⟨hs, hsc⟩
  exact List.ne_nil_of_mem this

/-- A page not containing the code has an empty filtered stub list. -/
lemma filter_eq_nil_of_not_pageHasCode (code : String) (pg : List Stub)
    (h : pageHasCode code pg = false) : pg.filter (fun s => s.code = code) = [] := by
  cases hf : pg.filter (fun s => s.code = code) with
  | nil => rfl
  | cons a l =>
    have ha : a ∈ pg.filter (fun s => s.code = code) := by rw [hf]; exact List.mem_cons_self a l
    obtain ⟨hmem, hcode⟩ := List.mem_filter.mp ha
    have : pg.any (fun s => s.code = code) = true := List.any_eq_true.mpr ⟨a, hmem, hcode⟩
    rw [pageHasCode] at h
    rw [this] at h
    exact absurd h (by simp)

/-- The last accumulated occurrence of a code over the page-by-page
accumulation lives in the highest-numbered page containing that code. -/
lemma lastStub_flatten (code : String) :
    ∀ pages : List (List Stub), 1 ≤ pages.countP (pageHasCode code) →
      ∃ i, i < pages.length ∧ pageHasCode code (pages.getD i []) = true ∧
        (∀ j, i < j → j < pages.length → pageHasCode code (pages.getD j []) = false) ∧
        lastStubWith code pages.flatten = lastStubWith code (pages.getD i []) := by
  intro pages
  induction pages using List.reverseRecOn with
  | nil => intro h; simp at h
  | append_singleton ps pg ih =>
    intro hcount
    have hgetlast : (ps ++ [pg]).getD ps.length [] = pg := by
      rw [List.getD_eq_getElem?_getD, List.getElem?_append_right (le_refl ps.length)]
      simp
    by_cases hpg : pageHasCode code pg = true
    · refine ⟨ps.length, by simp, ?_, ?_, ?_⟩
      · rw [hgetlast]; exact hpg
      · intro j hj1 hj2
        simp only [List.length_append, List.length_singleton] at hj2
        omega
      · rw [hgetlast]
        have hfl : (ps ++ [pg]).flatten = ps.flatten ++ pg := by simp
        rw [hfl]
        simp only [lastStubWith, List.filter_append]
        exact List.getLast?_append_of_ne_nil _ (filter_ne_nil_of_pageHasCode code pg hpg)
    · have hpg' : pageHasCode code pg = false := by
        cases h : pageHasCode code pg
        · rfl
        · exact absurd h hpg
      have hcount' : 1 ≤ ps.countP (pageHasCode code) := by
        have : (ps ++ [pg]).countP (pageHasCode code) =
            ps.countP (pageHasCode code) + [pg].countP (pageHasCode code) :=
          List.countP_append _ _ _
        have hz : [pg].countP (pageHasCode code) = 0 := by
          simp [List.countP_cons, hpg']
        omega
      obtain ⟨i, hi, hhas, hmax, hlast⟩ := ih hcount'
      have hgetkeep : (ps ++ [pg]).getD i [] = ps.getD i [] := by
        rw [List.getD_eq_getElem?_getD, List.getElem?_append_left hi,
          ← List.getD_eq_getElem?_getD]
      refine ⟨i, by simp; omega, ?_, ?_, ?_⟩
      · rw [hgetkeep]; exact hhas
      · intro j hj1 hj2
        simp only [List.length_append, List.length_singleton] at hj2
        by_cases hjlt : j < ps.length
        · have : (ps ++ [pg]).getD j [] = ps.getD j [] := by
            rw [List.getD_eq_getElem?_getD, List.getElem?_append_left hjlt,
              ← List.getD_eq_getElem?_getD]
          rw [this]
          exact hmax j hj1 hjlt
        · have hj : j = ps.length := by omega
          rw [hj, hgetlast]
          exact hpg'
      · rw [hgetkeep]
        have hfl : (ps ++ [pg]).flatten = ps.flatten ++ pg := by simp
        rw [hfl]
        simp only [lastStubWith, List.filter_append]
        rw [filter_eq_nil_of_not_pageHasCode code pg hpg', List.append_nil]
        exact hlast

/-- C8: for a subject code appearing on more than one search-results
page, exactly one stub survives deduplication — the last-accumulated one
from the highest-numbered page containing that code (last-write-wins
over the sequential page accumulation, JS `Map.set` semantics). -/
theorem dedup_lastPageWins (pages : List (List Stub)) (code : String)
    (hcode : code ≠ "") (hmulti : 2 ≤ pages.countP (pageHasCode code)) :
    ∃ s i, i < pages.length ∧ pageHasCode code (pages.getD i []) = true ∧
      (∀ j, i < j → j < pages.length → pageHasCode code (pages.getD j []) = false) ∧
      lastStubWith code (pages.getD i []) = some s ∧
      (dedupStubs pages.flatten).filter (fun x => x.code = code) = [s] := by
  obtain ⟨i, hi, hhas, hmax, hlast⟩ := lastStub_flatten code pages (by omega)
  obtain ⟨s, hs⟩ : ∃ s, lastStubWith code (pages.getD i []) = some s := by
    cases hx : lastStubWith code (pages.getD i []) with
    | some s => exact ⟨s, rfl⟩
    | none =>
      exfalso
      have hne := filter_ne_nil_of_pageHasCode code (pages.getD i []) hhas
      rw [lastStubWith] at hx
      exact hne (List.getLast?_eq_none_iff.mp hx)
  refine ⟨s, i, hi, hhas, hmax, hs, ?_⟩
  rw [dedupStubs_filter code hcode, hlast, hs]
  rfl

/-- Witness for C8: code `A` appears on both pages of `pagesTwoA`; the
survivor is the page-2 stub. -/
theorem dedup_lastPageWins_witness :
    (("A" : String) ≠ "") ∧ 2 ≤ pagesTwoA.countP (pageHasCode "A") ∧
      (dedupStubs pagesTwoA.flatten).filter (fun x => x.code = "A")
        = [⟨"A", "second", none, ""⟩] ∧
      (∃ s i, i < pagesTwoA.length ∧ pageHasCode "A" (pagesTwoA.getD i []) = true ∧
        (∀ j, i < j → j < pagesTwoA.length → pageHasCode "A" (pagesTwoA.getD j []) = false) ∧
        lastStubWith "A" (pagesTwoA.getD i []) = some s ∧
        (dedupStubs pagesTwoA.flatten).filter (fun x => x.code = "A") = [s]) := by
  refine ⟨by decide, by decide, by decide, ?_⟩
  exact dedup_lastPageWins pagesTwoA "A" (by decide) (by decide)

/-! Snapshot determinism. -/

/-- Two sorted permutations of a record list with pairwise-distinct
codes are equal: sorting by code is canonical once codes are unique. -/
lemma sorted_nodup_perm_eq :
    ∀ (l₁ l₂ : List SubjectRecord), l₁.Perm l₂ → l₁.Sorted recLE → l₂.Sorted recLE →
      ((l₁.map (fun r => r.code)).Nodup) → l₁ = l₂ := by
  intro l₁
  induction l₁ with
  | nil => intro l₂ hp _ _ _; exact hp.nil_eq
  | cons a t₁ ih =>
    intro l₂ hp hs₁ hs₂ hnd
    cases l₂ with
    | nil => exact absurd hp.symm.nil_eq (by simp)
    | cons b t₂ =>
      have hab : a = b := by
        by_contra hne
        have ha2 : a ∈ b :: t₂ := hp.subset (List.mem_cons_self a t₁)
        have hb1 : b ∈ a :: t₁ := hp.symm.subset (List.mem_cons_self b t₂)
        have hat2 : a ∈ t₂ := by
          rcases List.mem_cons.mp ha2 with h | h
          · exact absurd h hne
          · exact h
        have hbt1 : b ∈ t₁ := by
          rcases List.mem_cons.mp hb1 with h | h
          · exact absurd h.symm hne
          · exact h
        have h1 : recLE a b := (List.sorted_cons.mp hs₁).1 b hbt1
        have h2 : recLE b a := (List.sorted_cons.mp hs₂).1 a hat2
        have hcodes : a.code = b.code := le_antisymm h1 h2
        have : a.code ∈ t₁.map (fun r => r.code) := by
          rw [hcodes]
          exact List.mem_map_of_mem _ hbt1
        exact (List.nodup_cons.mp hnd).1 this
      subst hab
      have ht : t₁.Perm t₂ := hp.cons_inv
      have := ih t₂ ht (List.sorted_cons.mp hs₁).2 (List.sorted_cons.mp hs₂).2
        (List.nodup_cons.mp hnd).2
      rw [this]

/-- A saved record carries its candidate's code. -/
lemma processItem_code (pages : Stub → SubjectPages) (onlySemester1 : Bool)
    (item : Stub) (r : SubjectRecord)
    (h : processItem pages onlySemester1 item = .saved r) : r.code = item.code := by
  obtain ⟨d, _, rfl⟩ := processItem_saved pages onlySemester1 item r h
  rfl

/-- The codes of the crawl results form a sublist of the candidates'
codes. -/
lemma crawlResults_codes_sublist (pages : Stub → SubjectPages) (onlySemester1 : Bool) :
    ∀ order : List Stub,
      ((crawlResults pages onlySemester1 order).map (fun r => r.code)).Sublist
        (order.map (fun s => s.code)) := by
  intro order
  induction order with
  | nil => simp [crawlResults, crawlOutcomes]
  | cons s rest ih =>
    have hstep : crawlResults pages onlySemester1 (s :: rest) =
        (toSaved (processItem pages onlySemester1 s)).toList ++
          crawlResults pages onlySemester1 rest := by
      simp only [crawlResults, crawlOutcomes, List.map_cons, List.filterMap_cons]
      cases toSaved (processItem pages onlySemester1 s) <;> rfl
    rw [hstep]
    cases hres : processItem pages onlySemester1 s with
    | saved r =>
      have hc : r.code = s.code := processItem_code pages onlySemester1 s r hres
      simp only [toSaved, Option.toList, List.map_cons, List.map_append]
      simp only [List.singleton_append, List.map_cons, hc]
      exact ih.cons₂ s.code
    | filtered =>
      simp only [toSaved, Option.toList]
      exact ih.cons s.code
    | failedFetch =>
      simp only [toSaved, Option.toList]
      exact ih.cons s.code

/-- C9: over byte-identical per-URL page content (the `pages` oracle),
two crawl runs whose worker pools complete the deduplicated candidates
in any two orders produce byte-identical sorted `items` and the
identical 12-character `version` (the version is a deterministic hash of
the serialized sorted items and does not read `generatedAt`). -/
theorem snapshot_deterministic (pages : Stub → SubjectPages) (onlySemester1 : Bool)
    (stubs order₁ order₂ : List Stub)
    (hashHex : String → String) (stringify : List SubjectRecord → String)
    (now₁ now₂ searchUrl : String) (totalFound skipped : Nat)
    (h₁ : order₁.Perm (dedupStubs stubs)) (h₂ : order₂.Perm (dedupStubs stubs)) :
    (mkSnapshot hashHex stringify now₁ searchUrl totalFound skipped
        (crawlResults pages onlySemester1 order₁)).items =
      (mkSnapshot hashHex stringify now₂ searchUrl totalFound skipped
        (crawlResults pages onlySemester1 order₂)).items ∧
    (mkSnapshot hashHex stringify now₁ searchUrl totalFound skipped
        (crawlResults pages onlySemester1 order₁)).version =
      (mkSnapshot hashHex stringify now₂ searchUrl totalFound skipped
        (crawlResults pages onlySemester1 order₂)).version := by
  have hperm : (crawlResults pages onlySemester1 order₁).Perm
      (crawlResults pages onlySemester1 order₂) := by
    have h12 : order₁.Perm order₂ := h₁.trans h₂.symm
    simpa only [crawlResults, crawlOutcomes, List.filterMap_map] using
      (h12.map (processItem pages onlySemester1)).filterMap toSaved
  have hnd₁ : ((crawlResults pages onlySemester1 order₁).map (fun r => r.code)).Nodup := by
    have hcodes : (order₁.map (fun s => s.code)).Nodup := by
      have := (h₁.map (fun s => s.code)).nodup_iff
      exact this.mpr (dedupStubs_codes_nodup stubs)
    exact (crawlResults_codes_sublist pages onlySemester1 order₁).nodup hcodes
  have hitems : sortByCode (crawlResults pages onlySemester1 order₁) =
      sortByCode (crawlResults pages onlySemester1 order₂) := by
    apply sorted_nodup_perm_eq
    · exact ((List.perm_insertionSort recLE _).trans hperm).trans
        (List.perm_insertionSort recLE _).symm
    · exact List.sorted_insertionSort recLE _
    · exact List.sorted_insertionSort recLE _
    · have : (sortByCode (crawlResults pages onlySemester1 order₁)).Perm
          (crawlResults pages onlySemester1 order₁) := List.perm_insertionSort recLE _
      exact ((this.map (fun r => r.code)).nodup_iff).mpr hnd₁
  constructor
  · simpa [mkSnapshot] using hitems
  · simp only [mkSnapshot]
    rw [hitems]

/-- Witness for C9: the two-stub pool processed in its dedup order and
in reverse yields the same items and version. -/
theorem snapshot_deterministic_witness :
    (mkSnapshot (fun s => s) (fun _ => "payload") "t1" "u" 2 0
        (crawlResults pagesCaseVariant true (dedupStubs stubsW9))).items =
      (mkSnapshot (fun s => s) (fun _ => "payload") "t2" "u" 2 0
        (crawlResults pagesCaseVariant true ((dedupStubs stubsW9).reverse))).items ∧
    (mkSnapshot (fun s => s) (fun _ => "payload") "t1" "u" 2 0
        (crawlResults pagesCaseVariant true (dedupStubs stubsW9))).version =
      (mkSnapshot (fun s => s) (fun _ => "payload") "t2" "u" 2 0
        (crawlResults pagesCaseVariant true ((dedupStubs stubsW9).reverse))).version := by
  exact snapshot_deterministic pagesCaseVariant true stubsW9 (dedupStubs stubsW9)
    ((dedupStubs stubsW9).reverse) (fun s => s) (fun _ => "payload") "t1" "t2" "u" 2 0
    (List.Perm.refl _) (List.reverse_perm _)
